import Mathlib

set_option maxRecDepth 4000

/-!
Verification of the binary min-heap event queue in `src/include/event_queue.c`
and the fixed-capacity integer heap in `src/include/queue.c`.

The C code is shallowly embedded: each struct becomes a Lean structure, each
function a Lean function, and the in-place `for` loops become recursive
functions on the buffer.  Machine integers are modelled as `Nat` with the
wrap-around of C's `unsigned int` made explicit via `% U32`; the buffer is a
`List Event` accessed through a total read function (out-of-range reads, which
are undefined behaviour in C, return a fixed default), and `realloc` success
or failure is an explicit boolean input.
-/

/-- `2^32`, the modulus of C's `unsigned int`. -/
def U32 : Nat := 4294967296

/-- `struct event`: a timestamp `when` (`uint64_t`), a callback pointer `occur`
and a payload pointer `data`.  The two pointers are opaque to the queue, so
they are modelled as plain numbers (abstract addresses). -/
structure Event where
  when : Nat
  occur : Nat
  data : Nat
deriving DecidableEq, Repr

/-- The value an out-of-range buffer read yields in this model (in C such a
read is undefined behaviour). -/
def defaultEvent : Event := ⟨0, 0, 0⟩

/-- Total read `data[i]` of an event buffer. -/
def listGet (l : List Event) (i : Nat) : Event := l.getD i defaultEvent

/-- `#define EVENT_CMP(a, b) (((a).when) <= ((b).when))` -/
abbrev EVENT_CMP (a b : Event) : Prop := a.when ≤ b.when

/-- `struct event_queue`: element count, capacity, and the backing buffer.
The list `data` models the allocated block of `cap` slots (`data.length = cap`
for every queue the C code actually builds); slots at index `≥ count` are
live allocation but dead content.  A `NULL` buffer is modelled as `[]`. -/
structure event_queue where
  count : Nat
  cap : Nat
  data : List Event
deriving DecidableEq, Repr

/-- `event_queue_init` with a successful `malloc`: `count = 0` and a buffer of
`cap` slots whose (uninitialised) contents are modelled as `defaultEvent`. -/
def event_queue_init (cap : Nat) : event_queue :=
  { count := 0, cap := cap, data := List.replicate cap defaultEvent }

/-- `realloc(data, newCap * sizeof(struct event))` when it succeeds: the first
`min (data.length) newCap` slots keep their contents, any fresh slots hold
uninitialised memory (modelled as `defaultEvent`). -/
def reallocBuf (l : List Event) (newCap : Nat) : List Event :=
  l.take newCap ++ List.replicate (newCap - l.length) defaultEvent

/-- The sift-up loop of `event_queue_push`:
`for(index = count; index; index = parent) { parent = (index-1)>>1;
if EVENT_CMP(data[parent], value) break; data[index] = data[parent]; }
data[index] = value;` -/
def siftUpLoop (value : Event) (data : List Event) (index : Nat) : List Event :=
  if index = 0 then data.set 0 value
  else
    if EVENT_CMP (listGet data ((index - 1) / 2)) value then data.set index value
    else siftUpLoop value (data.set index (listGet data ((index - 1) / 2))) ((index - 1) / 2)
termination_by index
decreasing_by omega

/-- `event_queue_push`.  `allocOk` is the outcome of `realloc` when growth is
required.  Returns the C return value (`1` failure, `0` success) and the
queue state after the call.  On the failure path the C code has already
executed `h->cap *= 2` and overwritten `h->data` with `NULL` (modelled `[]`),
exactly as in the source. -/
def event_queue_push (allocOk : Bool) (h : event_queue) (value : Event) :
    Nat × event_queue :=
  if h.count = h.cap then
    if allocOk then
      (0, { count := (h.count + 1) % U32, cap := h.cap * 2 % U32,
            data := siftUpLoop value (reallocBuf h.data (h.cap * 2 % U32)) h.count })
    else
      (1, { count := h.count, cap := h.cap * 2 % U32, data := [] })
  else
    (0, { count := (h.count + 1) % U32, cap := h.cap,
          data := siftUpLoop value h.data h.count })

/-- The sift-down loop of `event_queue_pop`:
`for(index = 0; 1; index = swap) { swap = (index<<1)+1;
if (swap >= count) break; other = swap+1;
if ((other < count) && EVENT_CMP(data[other], data[swap])) swap = other;
if EVENT_CMP(*temp, data[swap]) break; data[index] = data[swap]; }
data[index] = *temp;`
`temp` points at `data[cnt]`, a slot the loop never writes (all writes are at
indices `< cnt`), so its value is passed as a constant. -/
def siftDownLoop (cnt : Nat) (temp : Event) (data : List Event) (index : Nat) :
    List Event :=
  if 2 * index + 1 ≥ cnt then data.set index temp
  else
    if 2 * index + 1 + 1 < cnt ∧
        EVENT_CMP (listGet data (2 * index + 1 + 1)) (listGet data (2 * index + 1)) then
      if EVENT_CMP temp (listGet data (2 * index + 1 + 1)) then data.set index temp
      else siftDownLoop cnt temp (data.set index (listGet data (2 * index + 1 + 1)))
        (2 * index + 1 + 1)
    else
      if EVENT_CMP temp (listGet data (2 * index + 1)) then data.set index temp
      else siftDownLoop cnt temp (data.set index (listGet data (2 * index + 1)))
        (2 * index + 1)
termination_by cnt - index
decreasing_by all_goals omega

/-- `event_queue_pop`: reads `data[0]` unconditionally, decrements the
`unsigned int` count (wrapping at zero), and sifts the former last element
down from the root.  There is no empty-queue check in the C source. -/
def event_queue_pop (h : event_queue) : Event × event_queue :=
  ( listGet h.data 0,
    { count := (h.count + (U32 - 1)) % U32, cap := h.cap,
      data := siftDownLoop ((h.count + (U32 - 1)) % U32)
        (listGet h.data ((h.count + (U32 - 1)) % U32)) h.data 0 } )

/-- Total read of an `int` buffer (`queue.c`). -/
def intGet (l : List Int) (i : Nat) : Int := l.getD i 0

/-- `#define CMP(a, b) ((a) <= (b))` -/
abbrev CMP (a b : Int) : Prop := a ≤ b

/-- `struct queue` of `queue.c`: count and an `int` buffer whose capacity is
managed by the caller. -/
structure queue where
  count : Nat
  data : List Int
deriving DecidableEq, Repr

/-- The sift-up loop of `queue_push` (same loop as `siftUpLoop`, with `CMP`
on bare `int` keys). -/
def intSiftUpLoop (value : Int) (data : List Int) (index : Nat) : List Int :=
  if index = 0 then data.set 0 value
  else
    if CMP (intGet data ((index - 1) / 2)) value then data.set index value
    else intSiftUpLoop value (data.set index (intGet data ((index - 1) / 2))) ((index - 1) / 2)
termination_by index
decreasing_by omega

/-- `queue_push`: no growth and no failure path; the caller guarantees
`count < capacity`. -/
def queue_push (h : queue) (value : Int) : queue :=
  { count := (h.count + 1) % U32, data := intSiftUpLoop value h.data h.count }

/-- The sift-down loop of `queue_pop` (same loop as `siftDownLoop` with `CMP`). -/
def intSiftDownLoop (cnt : Nat) (temp : Int) (data : List Int) (index : Nat) :
    List Int :=
  if 2 * index + 1 ≥ cnt then data.set index temp
  else
    if 2 * index + 1 + 1 < cnt ∧
        CMP (intGet data (2 * index + 1 + 1)) (intGet data (2 * index + 1)) then
      if CMP temp (intGet data (2 * index + 1 + 1)) then data.set index temp
      else intSiftDownLoop cnt temp (data.set index (intGet data (2 * index + 1 + 1)))
        (2 * index + 1 + 1)
    else
      if CMP temp (intGet data (2 * index + 1)) then data.set index temp
      else intSiftDownLoop cnt temp (data.set index (intGet data (2 * index + 1)))
        (2 * index + 1)
termination_by cnt - index
decreasing_by all_goals omega

/-- `queue_pop`. -/
def queue_pop (h : queue) : Int × queue :=
  ( intGet h.data 0,
    { count := (h.count + (U32 - 1)) % U32,
      data := intSiftDownLoop ((h.count + (U32 - 1)) % U32)
        (intGet h.data ((h.count + (U32 - 1)) % U32)) h.data 0 } )

/-- The heap invariant of the spec: for every non-root index `i` in the live
range, `buffer[parent(i)].when <= buffer[i].when` with `parent(i) = (i-1)/2`. -/
def heapProp (data : List Event) (count : Nat) : Prop :=
  ∀ i, 0 < i → i < count → (listGet data ((i - 1) / 2)).when ≤ (listGet data i).when

instance (data : List Event) (count : Nat) : Decidable (heapProp data count) :=
  decidable_of_iff
    (∀ i < count, 0 < i → (listGet data ((i - 1) / 2)).when ≤ (listGet data i).when)
    (by constructor <;> (intro h i h1 h2; exact h i h2 h1))

/-- Well-formedness of a queue state, as established by `event_queue_init`
with a positive capacity and maintained by the operations: the count fits in
the buffer, the buffer has exactly `cap` slots, the capacity is positive, and
capacity stays at most `2^31` so a doubling cannot wrap `unsigned int`. -/
def WF (q : event_queue) : Prop :=
  q.count ≤ q.cap ∧ q.data.length = q.cap ∧ 1 ≤ q.cap ∧ q.cap ≤ 2 ^ 31

/-- The live contents of a queue: the multiset held in `data[0 .. count)`. -/
def live (q : event_queue) : Multiset Event := ↑(q.data.take q.count)

/-- One client operation on an event queue. -/
inductive QOp where
  | push : Event → QOp
  | pop : QOp
deriving DecidableEq, Repr

/-- Run a list of operations (with every `realloc` succeeding), collecting
the events returned by the pops, in order. -/
def runOps (q : event_queue) : List QOp → List Event × event_queue
  | [] => ([], q)
  | QOp.push e :: rest => runOps (event_queue_push true q e).2 rest
  | QOp.pop :: rest =>
      ((event_queue_pop q).1 :: (runOps (event_queue_pop q).2 rest).1,
        (runOps (event_queue_pop q).2 rest).2)

/-- The events pushed by a list of operations. -/
def pushedEvents (ops : List QOp) : List Event :=
  ops.filterMap fun op => match op with
    | QOp.push e => some e
    | QOp.pop => none

/-- Validity of a run: every pop happens on a nonempty queue, and the element
count stays below `2^30` (so no `unsigned int` arithmetic wraps). -/
def validOps (q : event_queue) : List QOp → Bool
  | [] => true
  | QOp.push e :: rest =>
      decide (q.count < 2 ^ 30) && validOps (event_queue_push true q e).2 rest
  | QOp.pop :: rest =>
      decide (0 < q.count) && validOps (event_queue_pop q).2 rest

/-- Push a whole list of events (with every `realloc` succeeding). -/
def pushAll (q : event_queue) : List Event → event_queue
  | [] => q
  | v :: vs => pushAll (event_queue_push true q v).2 vs

/-- Pop `n` times, collecting the returned events in order. -/
def popN (q : event_queue) : Nat → List Event × event_queue
  | 0 => ([], q)
  | n + 1 =>
      ((event_queue_pop q).1 :: (popN (event_queue_pop q).2 n).1,
        (popN (event_queue_pop q).2 n).2)

/-- One client operation on an integer heap. -/
inductive IOp where
  | push : Int → IOp
  | pop : IOp
deriving DecidableEq, Repr

/-- Run a list of operations on an integer heap, collecting the popped keys. -/
def runIntOps (q : queue) : List IOp → List Int × queue
  | [] => ([], q)
  | IOp.push k :: rest => runIntOps (queue_push q k) rest
  | IOp.pop :: rest =>
      ((queue_pop q).1 :: (runIntOps (queue_pop q).2 rest).1,
        (runIntOps (queue_pop q).2 rest).2)

/-- The ordering key of an event, as the `int` heap sees it. -/
def projEvent (e : Event) : Int := (e.when : Int)

/-- The integer heap corresponding to an event queue: same count, the buffer
projected to bare keys. -/
def projQueue (q : event_queue) : queue :=
  { count := q.count, data := q.data.map projEvent }

/-- Project event-queue operations to integer-heap operations on the keys. -/
def projOp (op : QOp) : IOp :=
  match op with
  | QOp.push e => IOp.push (projEvent e)
  | QOp.pop => IOp.pop

/-- Validity of a run that never grows: every push happens with
`count < cap` (the caller-enforced precondition of the fixed-capacity heap)
and every pop on a nonempty queue. -/
def noGrowValid (q : event_queue) : List QOp → Bool
  | [] => true
  | QOp.push e :: rest =>
      decide (q.count < q.cap) && noGrowValid (event_queue_push true q e).2 rest
  | QOp.pop :: rest =>
      decide (0 < q.count) && noGrowValid (event_queue_pop q).2 rest

theorem listGet_set_ne (l : List Event) (i j : Nat) (x : Event) (h : i ≠ j) :
    listGet (l.set i x) j = listGet l j := by
  induction l generalizing i j with
  | nil => simp [List.set]
  | cons a t ih =>
      cases i with
      | zero =>
          cases j with
          | zero => exact absurd rfl h
          | succ j => simp [listGet, List.set]
      | succ i =>
          cases j with
          | zero => simp [listGet, List.set]
          | succ j =>
              simp only [List.set, listGet, List.getD_cons_succ]
              exact ih i j (by omega)

theorem listGet_set_self (l : List Event) (i : Nat) (x : Event) (h : i < l.length) :
    listGet (l.set i x) i = x := by
  induction l generalizing i with
  | nil => simp at h
  | cons a t ih =>
      cases i with
      | zero => simp [listGet, List.set]
      | succ i =>
          simp only [List.set, listGet, List.getD_cons_succ]
          exact ih i (by simpa using h)

theorem siftUpLoop_length (v : Event) (data : List Event) (index : Nat) :
    (siftUpLoop v data index).length = data.length := by
  induction data, index using siftUpLoop.induct v with
  | case1 data => rw [siftUpLoop.eq_def]; simp
  | case2 data index h1 h2 => rw [siftUpLoop.eq_def]; simp [h1, h2]
  | case3 data index h1 h2 ih =>
      rw [siftUpLoop.eq_def]
      simp only [if_neg h1, if_neg h2]
      simpa using ih

theorem siftUpLoop_heapProp (v : Event) (data : List Event) (index : Nat) (n : Nat)
    (hlen : n < data.length) (hidx : index ≤ n)
    (ha : ∀ i, 0 < i → i < n + 1 → i ≠ index →
      (listGet (data.set index v) ((i - 1) / 2)).when ≤ (listGet (data.set index v) i).when)
    (hc : ∀ c, (c = 2 * index + 1 ∨ c = 2 * index + 2) → c < n + 1 → 0 < index →
      (listGet data ((index - 1) / 2)).when ≤ (listGet data c).when) :
    heapProp (siftUpLoop v data index) (n + 1) := by
  induction data, index using siftUpLoop.induct v with
  | case1 data =>
      rw [siftUpLoop.eq_def]
      simp only [if_pos rfl]
      intro i h0 hi
      exact ha i h0 hi (by omega)
  | case2 data index h1 h2 =>
      rw [siftUpLoop.eq_def]
      simp only [if_neg h1, if_pos h2]
      intro i h0 hi
      by_cases hii : i = index
      · subst hii
        rw [listGet_set_ne data i ((i - 1) / 2) v (by omega),
          listGet_set_self data i v (by omega)]
        exact h2
      · exact ha i h0 hi hii
  | case3 data index h1 h2 ih =>
      rw [siftUpLoop.eq_def]
      simp only [if_neg h1, if_neg h2]
      -- notation for the hole and its parent
      set p := (index - 1) / 2 with hp
      have hpi : p < index := by omega
      have hv2 : v.when < (listGet data p).when := by
        simpa [EVENT_CMP] using h2
      apply ih
      · simpa using hlen
      · omega
      · -- pairs of the array with `v` at the new hole `p`
        intro i h0 hi hip
        have hgi : ∀ j, j ≠ p → j ≠ index →
            listGet ((data.set index (listGet data p)).set p v) j = listGet data j := by
          intro j hjp hji
          rw [listGet_set_ne _ _ _ _ (Ne.symm hjp), listGet_set_ne _ _ _ _ (Ne.symm hji)]
        have hgp : listGet ((data.set index (listGet data p)).set p v) p = v := by
          apply listGet_set_self
          simp only [List.length_set]
          omega
        have hgindex : listGet ((data.set index (listGet data p)).set p v) index
            = listGet data p := by
          rw [listGet_set_ne _ _ _ _ (by omega : p ≠ index)]
          exact listGet_set_self data index _ (by omega)
        by_cases hii : i = index
        · -- the pair (p, index): v goes above the old parent value
          subst hii
          rw [← hp, hgp, hgindex]
          omega
        · by_cases hpar_index : (i - 1) / 2 = index
          · -- i is a child of the old hole: use the grandparent bound hc
            have hchild : i = 2 * index + 1 ∨ i = 2 * index + 2 := by omega
            have hinep : i ≠ p := by omega
            rw [hpar_index, hgindex, hgi i hinep hii]
            exact hc i hchild hi (by omega)
          · by_cases hpar_p : (i - 1) / 2 = p
            · -- i is a child of the new hole p (the sibling of index)
              have hchildp : i = 2 * p + 1 ∨ i = 2 * p + 2 := by omega
              have hindexchild : index = 2 * p + 1 ∨ index = 2 * p + 2 := by omega
              have hinep : i ≠ p := by omega
              rw [hpar_p, hgp, hgi i hinep hii]
              -- from ha, data[p] ≤ data[i]; and v < data[p]
              have := ha i h0 hi hii
              rw [listGet_set_ne _ _ _ _ (by omega : index ≠ (i - 1) / 2),
                listGet_set_ne _ _ _ _ (Ne.symm hii)] at this
              rw [hpar_p] at this
              omega
            · -- untouched pair
              have hinep : i ≠ p := by omega
              have hpar_ne : (i - 1) / 2 ≠ index := hpar_index
              rw [hgi i hinep hii, hgi ((i - 1) / 2) hpar_p hpar_ne]
              have := ha i h0 hi hii
              rw [listGet_set_ne _ _ _ _ (Ne.symm hpar_ne),
                listGet_set_ne _ _ _ _ (Ne.symm hii)] at this
              exact this
      · -- grandparent bound for the new hole p
        intro c hcch hcn h0p
        have hgindex : listGet (data.set index (listGet data p)) index = listGet data p :=
          listGet_set_self data index _ (by omega)
        have hpp : (p - 1) / 2 < p := by omega
        have hgpp : listGet (data.set index (listGet data p)) ((p - 1) / 2)
            = listGet data ((p - 1) / 2) := by
          exact listGet_set_ne _ _ _ _ (by omega)
        rw [hgpp]
        -- data[(p-1)/2] ≤ data[p] from ha at i = p
        have hap := ha p (by omega) (by omega) (by omega)
        rw [listGet_set_ne _ _ _ _ (by omega : index ≠ (p - 1) / 2),
          listGet_set_ne _ _ _ _ (by omega : index ≠ p)] at hap
        have hcp : p < c := by rcases hcch with rfl | rfl <;> omega
        have hcpar : (c - 1) / 2 = p := by rcases hcch with rfl | rfl <;> omega
        by_cases hci : c = index
        · rw [hci, hgindex]
          exact hap
        · rw [listGet_set_ne _ _ _ _ (Ne.symm hci)]
          -- data[p] ≤ data[c] from ha at i = c, then chain with hap
          have hac := ha c (by omega) hcn hci
          rw [listGet_set_ne _ _ _ _ (by omega : index ≠ (c - 1) / 2),
            listGet_set_ne _ _ _ _ (Ne.symm hci)] at hac
          rw [hcpar] at hac
          omega

theorem take_set_comm (l : List Event) (n i : Nat) (x : Event) :
    (l.set i x).take n = (l.take n).set i x := by
  induction l generalizing n i with
  | nil => simp [List.set]
  | cons a t ih =>
      cases i with
      | zero => cases n <;> simp [List.set]
      | succ i =>
          cases n with
          | zero => simp [List.set]
          | succ n => simp only [List.set, List.take_succ_cons]; rw [ih]

theorem listGet_take (l : List Event) (n i : Nat) (h : i < n) :
    listGet (l.take n) i = listGet l i := by
  induction l generalizing n i with
  | nil => simp
  | cons a t ih =>
      cases n with
      | zero => omega
      | succ n =>
          cases i with
          | zero => simp [listGet]
          | succ i =>
              simp only [List.take_succ_cons, listGet, List.getD_cons_succ]
              exact ih n i (by omega)

theorem mset_set_cons (l : List Event) (i : Nat) (x : Event) (h : i < l.length) :
    (x ::ₘ (↑l : Multiset Event)) = listGet l i ::ₘ ↑(l.set i x) := by
  induction l generalizing i with
  | nil => simp at h
  | cons a t ih =>
      cases i with
      | zero =>
          simp only [List.set, listGet, List.getD_cons_zero]
          exact Multiset.cons_swap x a ↑t
      | succ i =>
          simp only [List.set, listGet, List.getD_cons_succ]
          have hrec := ih i (by simpa using h)
          simp only [listGet] at hrec
          calc (x ::ₘ (↑(a :: t) : Multiset Event)) = a ::ₘ x ::ₘ ↑t := by
                rw [← Multiset.cons_coe]; exact Multiset.cons_swap x a ↑t
          _ = a ::ₘ (t.getD i defaultEvent ::ₘ ↑(t.set i x)) := by rw [hrec]
          _ = t.getD i defaultEvent ::ₘ ↑(a :: t.set i x) := by
                rw [← Multiset.cons_coe]
                exact Multiset.cons_swap a _ _

theorem mset_take_set (l : List Event) (n i : Nat) (x : Event)
    (hi : i < n) (hn : n ≤ l.length) :
    (x ::ₘ (↑(l.take n) : Multiset Event)) = listGet l i ::ₘ ↑((l.set i x).take n) := by
  rw [take_set_comm]
  have := mset_set_cons (l.take n) i x (by simp; omega)
  rw [listGet_take l n i hi] at this
  exact this

theorem take_succ_listGet (l : List Event) (n : Nat) (h : n < l.length) :
    l.take (n + 1) = l.take n ++ [listGet l n] := by
  rw [List.take_succ]
  simp [listGet, List.getD, List.getElem?_eq_getElem h]

theorem siftUpLoop_mset (v : Event) (data : List Event) (index : Nat) (n : Nat)
    (hlen : n + 1 ≤ data.length) (hidx : index ≤ n) :
    (listGet data index ::ₘ (↑((siftUpLoop v data index).take (n + 1)) : Multiset Event))
      = v ::ₘ ↑(data.take (n + 1)) := by
  induction data, index using siftUpLoop.induct v with
  | case1 data =>
      rw [siftUpLoop.eq_def]
      simp only [if_pos rfl]
      exact (mset_take_set data (n + 1) 0 v (by omega) hlen).symm
  | case2 data index h1 h2 =>
      rw [siftUpLoop.eq_def]
      simp only [if_neg h1, if_pos h2]
      exact (mset_take_set data (n + 1) index v (by omega) hlen).symm
  | case3 data index h1 h2 ih =>
      rw [siftUpLoop.eq_def]
      simp only [if_neg h1, if_neg h2]
      have hlen2 : n + 1 ≤ (data.set index (listGet data ((index - 1) / 2))).length := by
        simpa using hlen
      have hih := ih hlen2 (by omega)
      rw [listGet_set_ne _ _ _ _ (by omega : index ≠ (index - 1) / 2)] at hih
      have hset := mset_take_set data (n + 1) index (listGet data ((index - 1) / 2))
        (by omega) hlen
      -- cancel a cons of the parent value on both sides
      have key := congrArg (fun s => listGet data index ::ₘ s) hih
      simp only at key
      rw [Multiset.cons_swap (listGet data index) (listGet data ((index - 1) / 2))] at key
      rw [Multiset.cons_swap (listGet data index) v] at key
      rw [← hset] at key
      rw [Multiset.cons_swap v (listGet data ((index - 1) / 2))] at key
      exact (Multiset.cons_inj_right _).mp key

theorem siftDownLoop_length (cnt : Nat) (temp : Event) (data : List Event) (index : Nat) :
    (siftDownLoop cnt temp data index).length = data.length := by
  induction data, index using siftDownLoop.induct cnt temp with
  | case1 data index h1 => rw [siftDownLoop.eq_def]; simp [h1]
  | case2 data index h1 h2 h3 =>
      rw [siftDownLoop.eq_def]
      simp only [if_neg h1, if_pos h2, if_pos h3, List.length_set]
  | case3 data index h1 h2 h3 ih =>
      rw [siftDownLoop.eq_def]
      simp only [if_neg h1, if_pos h2, if_neg h3]
      simpa using ih
  | case4 data index h1 h2 h3 =>
      rw [siftDownLoop.eq_def]
      simp only [if_neg h1, if_neg h2, if_pos h3, List.length_set]
  | case5 data index h1 h2 h3 ih =>
      rw [siftDownLoop.eq_def]
      simp only [if_neg h1, if_neg h2, if_neg h3]
      simpa using ih

theorem siftDown_inv_step (cnt : Nat) (temp : Event) (data : List Event)
    (index c0 s : Nat)
    (hlen : cnt ≤ data.length) (hidx : index < cnt)
    (hch : c0 + s = 4 * index + 3 ∧ (c0 = 2 * index + 1 ∨ c0 = 2 * index + 2))
    (hc0 : c0 < cnt)
    (hmin : s < cnt → (listGet data c0).when ≤ (listGet data s).when)
    (hlt : (listGet data c0).when < temp.when)
    (ha : ∀ i, 0 < i → i < cnt → (i - 1) / 2 ≠ index →
      (listGet (data.set index temp) ((i - 1) / 2)).when
        ≤ (listGet (data.set index temp) i).when)
    (hb : ∀ c, (c = 2 * index + 1 ∨ c = 2 * index + 2) → c < cnt → 0 < index →
      (listGet data ((index - 1) / 2)).when ≤ (listGet data c).when) :
    (∀ i, 0 < i → i < cnt → (i - 1) / 2 ≠ c0 →
      (listGet ((data.set index (listGet data c0)).set c0 temp) ((i - 1) / 2)).when
        ≤ (listGet ((data.set index (listGet data c0)).set c0 temp) i).when) ∧
    (∀ c, (c = 2 * c0 + 1 ∨ c = 2 * c0 + 2) → c < cnt → 0 < c0 →
      (listGet (data.set index (listGet data c0)) ((c0 - 1) / 2)).when
        ≤ (listGet (data.set index (listGet data c0)) c).when) := by
  have hic0 : index < c0 := by omega
  have gA : ∀ j, j ≠ c0 → j ≠ index →
      listGet ((data.set index (listGet data c0)).set c0 temp) j = listGet data j := by
    intro j h1 h2
    rw [listGet_set_ne _ _ _ _ (Ne.symm h1), listGet_set_ne _ _ _ _ (Ne.symm h2)]
  have gAc0 : listGet ((data.set index (listGet data c0)).set c0 temp) c0 = temp := by
    apply listGet_set_self
    simp only [List.length_set]
    omega
  have gAindex : listGet ((data.set index (listGet data c0)).set c0 temp) index
      = listGet data c0 := by
    rw [listGet_set_ne _ _ _ _ (by omega : c0 ≠ index)]
    exact listGet_set_self data index _ (by omega)
  constructor
  · intro i h0 hi hip
    by_cases hic : i = c0
    · -- the pair (index, c0): the moved child value sits above temp's slot
      subst hic
      have hpc : (i - 1) / 2 = index := by omega
      rw [hpc, gAindex, gAc0]
      omega
    · by_cases his : i = s
      · -- the sibling of the chosen child, still under the moved child value
        subst his
        have hps : (i - 1) / 2 = index := by omega
        rw [hps, gAindex, gA i hic (by omega)]
        exact hmin hi
      · by_cases hii : i = index
        · -- the pair (parent index, index): grandparent bound hb
          subst hii
          have h0i : 0 < i := h0
          have hpne : (i - 1) / 2 ≠ c0 := hip
          rw [gAindex, gA ((i - 1) / 2) hip (by omega)]
          exact hb c0 hch.2 hc0 h0i
        · -- untouched pair
          have hpar_ne : (i - 1) / 2 ≠ index := by
            intro hcontra
            have : i = 2 * index + 1 ∨ i = 2 * index + 2 := by omega
            rcases hch.2 with h | h <;> omega
          rw [gA i hic hii, gA ((i - 1) / 2) hip hpar_ne]
          have := ha i h0 hi hpar_ne
          rw [listGet_set_ne _ _ _ _ (Ne.symm hpar_ne),
            listGet_set_ne _ _ _ _ (Ne.symm hii)] at this
          exact this
  · intro c hcch hccnt h0c0
    have hpc0 : (c0 - 1) / 2 = index := by rcases hch.2 with h | h <;> omega
    have hcgt : c0 < c := by rcases hcch with h | h <;> omega
    rw [hpc0, listGet_set_self data index _ (by omega),
      listGet_set_ne _ _ _ _ (by omega : index ≠ c)]
    have hparc : (c - 1) / 2 = c0 := by rcases hcch with h | h <;> omega
    have := ha c (by omega) hccnt (by omega)
    rw [listGet_set_ne _ _ _ _ (by omega : index ≠ (c - 1) / 2),
      listGet_set_ne _ _ _ _ (by omega : index ≠ c), hparc] at this
    exact this

theorem siftDownLoop_heapProp (cnt : Nat) (temp : Event) (data : List Event) (index : Nat)
    (hlen : cnt ≤ data.length) (hidx : index < cnt)
    (ha : ∀ i, 0 < i → i < cnt → (i - 1) / 2 ≠ index →
      (listGet (data.set index temp) ((i - 1) / 2)).when
        ≤ (listGet (data.set index temp) i).when)
    (hb : ∀ c, (c = 2 * index + 1 ∨ c = 2 * index + 2) → c < cnt → 0 < index →
      (listGet data ((index - 1) / 2)).when ≤ (listGet data c).when) :
    heapProp (siftDownLoop cnt temp data index) cnt := by
  induction data, index using siftDownLoop.induct cnt temp with
  | case1 data index h1 =>
      rw [siftDownLoop.eq_def]
      simp only [if_pos h1]
      intro i h0 hi
      by_cases hpar : (i - 1) / 2 = index
      · exfalso; omega
      · exact ha i h0 hi hpar
  | case2 data index h1 h2 h3 =>
      rw [siftDownLoop.eq_def]
      simp only [if_neg h1, if_pos h2, if_pos h3]
      intro i h0 hi
      by_cases hpar : (i - 1) / 2 = index
      · have hchild : i = 2 * index + 1 ∨ i = 2 * index + 2 := by omega
        rw [hpar, listGet_set_self data index temp (by omega),
          listGet_set_ne _ _ _ _ (by omega : index ≠ i)]
        have hcmp2 : (listGet data (2 * index + 1 + 1)).when
            ≤ (listGet data (2 * index + 1)).when := h2.2
        have hcmp3 : temp.when ≤ (listGet data (2 * index + 1 + 1)).when := h3
        have hg : (2 : Nat) * index + 1 + 1 = 2 * index + 2 := by omega
        rw [hg] at hcmp2 hcmp3
        rcases hchild with h | h <;> subst h <;> omega
      · exact ha i h0 hi hpar
  | case3 data index h1 h2 h3 ih =>
      rw [siftDownLoop.eq_def]
      simp only [if_neg h1, if_pos h2, if_neg h3]
      have hlt : (listGet data (2 * index + 1 + 1)).when < temp.when := by
        simpa [EVENT_CMP] using h3
      have hstep := siftDown_inv_step cnt temp data index (2 * index + 2) (2 * index + 1)
        hlen hidx (by omega) (by omega) (fun _ => h2.2) (by simpa using hlt) ha hb
      have hg : (2 : Nat) * index + 1 + 1 = 2 * index + 2 := by omega
      rw [hg]
      exact ih (by simpa using hlen) (by omega)
        (by simpa [hg] using hstep.1) (by simpa [hg] using hstep.2)
  | case4 data index h1 h2 h3 =>
      rw [siftDownLoop.eq_def]
      simp only [if_neg h1, if_neg h2, if_pos h3]
      intro i h0 hi
      by_cases hpar : (i - 1) / 2 = index
      · have hchild : i = 2 * index + 1 ∨ i = 2 * index + 2 := by omega
        rw [hpar, listGet_set_self data index temp (by omega),
          listGet_set_ne _ _ _ _ (by omega : index ≠ i)]
        have hcmp3 : temp.when ≤ (listGet data (2 * index + 1)).when := h3
        rcases hchild with h | h
        · subst h; omega
        · subst h
          have hnot : ¬ ((listGet data (2 * index + 1 + 1)).when
              ≤ (listGet data (2 * index + 1)).when) := by
            intro hcontra
            exact h2 ⟨by omega, hcontra⟩
          have hg : (2 : Nat) * index + 1 + 1 = 2 * index + 2 := by omega
          rw [hg] at hnot
          omega
      · exact ha i h0 hi hpar
  | case5 data index h1 h2 h3 ih =>
      rw [siftDownLoop.eq_def]
      simp only [if_neg h1, if_neg h2, if_neg h3]
      have hlt : (listGet data (2 * index + 1)).when < temp.when := by
        simpa [EVENT_CMP] using h3
      have hmin : 2 * index + 2 < cnt →
          (listGet data (2 * index + 1)).when ≤ (listGet data (2 * index + 2)).when := by
        intro hs
        have hnot : ¬ ((listGet data (2 * index + 1 + 1)).when
            ≤ (listGet data (2 * index + 1)).when) := by
          intro hcontra
          exact h2 ⟨by omega, hcontra⟩
        have hg : (2 : Nat) * index + 1 + 1 = 2 * index + 2 := by omega
        rw [hg] at hnot
        omega
      have hstep := siftDown_inv_step cnt temp data index (2 * index + 1) (2 * index + 2)
        hlen hidx (by omega) (by omega) hmin hlt ha hb
      exact ih (by simpa using hlen) (by omega) hstep.1 hstep.2

theorem siftDownLoop_mset (cnt : Nat) (temp : Event) (data : List Event) (index : Nat)
    (hlen : cnt ≤ data.length) (hidx : index < cnt) :
    (listGet data index ::ₘ (↑((siftDownLoop cnt temp data index).take cnt) : Multiset Event))
      = temp ::ₘ ↑(data.take cnt) := by
  induction data, index using siftDownLoop.induct cnt temp with
  | case1 data index h1 =>
      rw [siftDownLoop.eq_def]
      simp only [if_pos h1]
      exact (mset_take_set data _ index temp hidx hlen).symm
  | case2 data index h1 h2 h3 =>
      rw [siftDownLoop.eq_def]
      simp only [if_neg h1, if_pos h2, if_pos h3]
      exact (mset_take_set data _ index temp hidx hlen).symm
  | case4 data index h1 h2 h3 =>
      rw [siftDownLoop.eq_def]
      simp only [if_neg h1, if_neg h2, if_pos h3]
      exact (mset_take_set data _ index temp hidx hlen).symm
  | case3 data index h1 h2 h3 ih =>
      rw [siftDownLoop.eq_def]
      simp only [if_neg h1, if_pos h2, if_neg h3]
      have hih := ih (by simpa using hlen) (by omega)
      rw [listGet_set_ne _ _ _ _ (by omega : index ≠ 2 * index + 1 + 1)] at hih
      have hset := mset_take_set data cnt index (listGet data (2 * index + 1 + 1)) hidx hlen
      have key := congrArg (fun m => listGet data index ::ₘ m) hih
      simp only at key
      rw [Multiset.cons_swap (listGet data index) (listGet data (2 * index + 1 + 1))] at key
      rw [Multiset.cons_swap (listGet data index) temp] at key
      rw [← hset] at key
      rw [Multiset.cons_swap temp (listGet data (2 * index + 1 + 1))] at key
      exact (Multiset.cons_inj_right _).mp key
  | case5 data index h1 h2 h3 ih =>
      rw [siftDownLoop.eq_def]
      simp only [if_neg h1, if_neg h2, if_neg h3]
      have hih := ih (by simpa using hlen) (by omega)
      rw [listGet_set_ne _ _ _ _ (by omega : index ≠ 2 * index + 1)] at hih
      have hset := mset_take_set data cnt index (listGet data (2 * index + 1)) hidx hlen
      have key := congrArg (fun m => listGet data index ::ₘ m) hih
      simp only at key
      rw [Multiset.cons_swap (listGet data index) (listGet data (2 * index + 1))] at key
      rw [Multiset.cons_swap (listGet data index) temp] at key
      rw [← hset] at key
      rw [Multiset.cons_swap temp (listGet data (2 * index + 1))] at key
      exact (Multiset.cons_inj_right _).mp key

theorem heapProp_root_le (data : List Event) (n : Nat) (hh : heapProp data n) :
    ∀ i, i < n → (listGet data 0).when ≤ (listGet data i).when := by
  intro i
  induction i using Nat.strong_induction_on with
  | _ i ih =>
      intro hi
      cases Nat.eq_zero_or_pos i with
      | inl h0 => subst h0; exact le_rfl
      | inr h0 =>
          have hpar := hh i h0 hi
          have hpi : (i - 1) / 2 < i := by omega
          exact le_trans (ih ((i - 1) / 2) hpi (by omega)) hpar

theorem reallocBuf_length (l : List Event) (n : Nat) : (reallocBuf l n).length = n := by
  simp only [reallocBuf, List.length_append, List.length_take, List.length_replicate]
  omega

theorem reallocBuf_take (l : List Event) (n k : Nat) (hk : k ≤ n) (hk2 : k ≤ l.length) :
    (reallocBuf l n).take k = l.take k := by
  unfold reallocBuf
  rw [List.take_append_of_le_length (by simp; omega)]
  rw [List.take_take]
  congr 1
  omega

theorem listGet_append_right (l l2 : List Event) :
    listGet (l ++ l2) l.length = listGet l2 0 := by
  simp [listGet, List.getD, List.getElem?_append_right (le_refl l.length)]

theorem mem_take_listGet (l : List Event) (n : Nat) (x : Event) (h : x ∈ l.take n) :
    ∃ i, i < n ∧ i < l.length ∧ listGet l i = x := by
  obtain ⟨i, hi, hx⟩ := List.getElem_of_mem h
  have hlt : i < min n l.length := by simpa using hi
  refine ⟨i, by omega, by omega, ?_⟩
  rw [List.getElem_take] at hx
  rw [listGet, List.getD_eq_getElem l defaultEvent (by omega)]
  exact hx

theorem mset_take_succ (l : List Event) (n : Nat) (h : n < l.length) :
    (↑(l.take (n + 1)) : Multiset Event) = listGet l n ::ₘ ↑(l.take n) := by
  rw [take_succ_listGet l n h, ← Multiset.coe_add]
  rw [add_comm]
  rfl


theorem event_queue_push_grow (q : event_queue) (v : Event) (h : q.count = q.cap) :
    event_queue_push true q v =
      (0, { count := (q.count + 1) % U32, cap := q.cap * 2 % U32,
            data := siftUpLoop v (reallocBuf q.data (q.cap * 2 % U32)) q.count }) := by
  simp [event_queue_push, h]

theorem event_queue_push_fail (q : event_queue) (v : Event) (h : q.count = q.cap) :
    event_queue_push false q v =
      (1, { count := q.count, cap := q.cap * 2 % U32, data := [] }) := by
  simp [event_queue_push, h]

theorem event_queue_push_nogrow (a : Bool) (q : event_queue) (v : Event)
    (h : q.count ≠ q.cap) :
    event_queue_push a q v =
      (0, { count := (q.count + 1) % U32, cap := q.cap,
            data := siftUpLoop v q.data q.count }) := by
  simp [event_queue_push, h]

theorem push_step (q : event_queue) (v : Event)
    (hwf : WF q) (hcount : q.count < 2 ^ 30) (hhp : heapProp q.data q.count) :
    (event_queue_push true q v).1 = 0 ∧
    WF (event_queue_push true q v).2 ∧
    (event_queue_push true q v).2.count = q.count + 1 ∧
    heapProp (event_queue_push true q v).2.data (event_queue_push true q v).2.count ∧
    live (event_queue_push true q v).2 = v ::ₘ live q := by
  obtain ⟨hc1, hc2, hc3, hc4⟩ := hwf
  have hmod1 : (q.count + 1) % U32 = q.count + 1 := by unfold U32; omega
  by_cases hgrow : q.count = q.cap
  · -- growth branch with a successful realloc
    have hcapmod : q.cap * 2 % U32 = q.cap * 2 := by unfold U32; omega
    have hlen' : (reallocBuf q.data (q.cap * 2 % U32)).length = q.cap * 2 := by
      rw [reallocBuf_length, hcapmod]
    have hcount_lt : q.count < (reallocBuf q.data (q.cap * 2 % U32)).length := by omega
    have htake : (reallocBuf q.data (q.cap * 2 % U32)).take q.count = q.data.take q.count := by
      apply reallocBuf_take
      · omega
      · omega
    have hget : ∀ i, i < q.count →
        listGet (reallocBuf q.data (q.cap * 2 % U32)) i = listGet q.data i := by
      intro i hi
      rw [← listGet_take _ q.count i hi, htake, listGet_take _ q.count i hi]
    rw [event_queue_push_grow q v hgrow]
    refine ⟨rfl, ⟨?_, ?_, ?_, ?_⟩, ?_, ?_, ?_⟩
    · show (q.count + 1) % U32 ≤ q.cap * 2 % U32
      unfold U32
      omega
    · show (siftUpLoop v (reallocBuf q.data (q.cap * 2 % U32)) q.count).length
        = q.cap * 2 % U32
      rw [siftUpLoop_length, reallocBuf_length]
    · show 1 ≤ q.cap * 2 % U32
      unfold U32
      omega
    · show q.cap * 2 % U32 ≤ 2 ^ 31
      unfold U32
      omega
    · exact hmod1
    · show heapProp (siftUpLoop v (reallocBuf q.data (q.cap * 2 % U32)) q.count)
        ((q.count + 1) % U32)
      rw [hmod1]
      apply siftUpLoop_heapProp _ _ _ q.count hcount_lt (le_refl _)
      · intro i h0 hi hii
        have hi' : i < q.count := by omega
        have hp' : (i - 1) / 2 < q.count := by omega
        rw [listGet_set_ne _ _ _ _ (by omega : q.count ≠ (i - 1) / 2),
          listGet_set_ne _ _ _ _ (by omega : q.count ≠ i),
          hget i hi', hget _ hp']
        exact hhp i h0 hi'
      · intro c hch hcl h0
        omega
    · show (↑((siftUpLoop v (reallocBuf q.data (q.cap * 2 % U32)) q.count).take
          ((q.count + 1) % U32)) : Multiset Event) = v ::ₘ live q
      rw [hmod1]
      have hmk := siftUpLoop_mset v (reallocBuf q.data (q.cap * 2 % U32)) q.count q.count
        (by omega) (le_refl _)
      rw [mset_take_succ _ q.count hcount_lt] at hmk
      rw [htake] at hmk
      rw [Multiset.cons_swap v (listGet (reallocBuf q.data (q.cap * 2 % U32)) q.count)] at hmk
      exact (Multiset.cons_inj_right _).mp hmk
  · -- no growth: count < cap
    have hlt : q.count < q.cap := by omega
    have hcount_lt : q.count < q.data.length := by omega
    rw [event_queue_push_nogrow true q v hgrow]
    refine ⟨rfl, ⟨?_, ?_, ?_, ?_⟩, ?_, ?_, ?_⟩
    · show (q.count + 1) % U32 ≤ q.cap
      unfold U32
      omega
    · show (siftUpLoop v q.data q.count).length = q.cap
      rw [siftUpLoop_length]
      exact hc2
    · exact hc3
    · exact hc4
    · exact hmod1
    · show heapProp (siftUpLoop v q.data q.count) ((q.count + 1) % U32)
      rw [hmod1]
      apply siftUpLoop_heapProp _ _ _ q.count hcount_lt (le_refl _)
      · intro i h0 hi hii
        have hi' : i < q.count := by omega
        rw [listGet_set_ne _ _ _ _ (by omega : q.count ≠ (i - 1) / 2),
          listGet_set_ne _ _ _ _ (by omega : q.count ≠ i)]
        exact hhp i h0 hi'
      · intro c hch hcl h0
        omega
    · show (↑((siftUpLoop v q.data q.count).take ((q.count + 1) % U32)) : Multiset Event)
        = v ::ₘ live q
      rw [hmod1]
      have hmk := siftUpLoop_mset v q.data q.count q.count (by omega) (le_refl _)
      rw [mset_take_succ _ q.count hcount_lt] at hmk
      rw [Multiset.cons_swap v (listGet q.data q.count)] at hmk
      exact (Multiset.cons_inj_right _).mp hmk

theorem event_queue_pop_def (q : event_queue) :
    event_queue_pop q =
      ( listGet q.data 0,
        { count := (q.count + (U32 - 1)) % U32, cap := q.cap,
          data := siftDownLoop ((q.count + (U32 - 1)) % U32)
            (listGet q.data ((q.count + (U32 - 1)) % U32)) q.data 0 } ) := rfl

theorem pop_step (q : event_queue) (hwf : WF q) (h0 : 0 < q.count)
    (hhp : heapProp q.data q.count) :
    WF (event_queue_pop q).2 ∧
    (event_queue_pop q).2.count = q.count - 1 ∧
    heapProp (event_queue_pop q).2.data (event_queue_pop q).2.count ∧
    live q = (event_queue_pop q).1 ::ₘ live (event_queue_pop q).2 ∧
    (∀ x ∈ live q, ((event_queue_pop q).1).when ≤ x.when) := by
  obtain ⟨hc1, hc2, hc3, hc4⟩ := hwf
  have hcnt : (q.count + (U32 - 1)) % U32 = q.count - 1 := by unfold U32; omega
  have hlive : live q = listGet q.data 0 ::ₘ
      ↑((siftDownLoop (q.count - 1) (listGet q.data (q.count - 1)) q.data 0).take
        (q.count - 1)) := by
    rcases Nat.eq_or_lt_of_le h0 with h1 | h1
    · -- count = 1: the loop exits at once and the live region becomes empty
      have hq1 : q.count = 1 := h1.symm
      rw [siftDownLoop.eq_def]
      simp only [hq1]
      norm_num
      rw [live, hq1, take_succ_listGet q.data 0 (by omega)]
      simp
    · -- count ≥ 2: the multiset identity of the sift-down loop
      have hmk := siftDownLoop_mset (q.count - 1) (listGet q.data (q.count - 1)) q.data 0
        (by omega) (by omega)
      have hts := mset_take_succ q.data (q.count - 1) (by omega)
      rw [show q.count - 1 + 1 = q.count from by omega] at hts
      rw [live, hts]
      exact hmk.symm
  rw [event_queue_pop_def]
  dsimp only
  refine ⟨⟨?_, ?_, ?_, ?_⟩, ?_, ?_, ?_, ?_⟩
  · show (q.count + (U32 - 1)) % U32 ≤ q.cap
    unfold U32
    omega
  · show (siftDownLoop ((q.count + (U32 - 1)) % U32) _ q.data 0).length = q.cap
    rw [siftDownLoop_length]
    exact hc2
  · exact hc3
  · exact hc4
  · exact hcnt
  · show heapProp (siftDownLoop ((q.count + (U32 - 1)) % U32)
        (listGet q.data ((q.count + (U32 - 1)) % U32)) q.data 0)
      ((q.count + (U32 - 1)) % U32)
    rw [hcnt]
    rcases Nat.eq_or_lt_of_le h0 with h1 | h1
    · -- count = 1: nothing is live afterwards
      intro i hi0 hilt
      omega
    · apply siftDownLoop_heapProp (q.count - 1) _ q.data 0 (by omega) (by omega)
      · intro i hi0 hilt hpar
        rw [listGet_set_ne _ _ _ _ (Ne.symm hpar), listGet_set_ne _ _ _ _ (by omega : 0 ≠ i)]
        exact hhp i hi0 (by omega)
      · intro c hch hcl hfalse
        omega
  · show live q = listGet q.data 0 ::ₘ live _
    rw [live]
    show live q = listGet q.data 0 ::ₘ
      ↑((siftDownLoop ((q.count + (U32 - 1)) % U32)
        (listGet q.data ((q.count + (U32 - 1)) % U32)) q.data 0).take
          ((q.count + (U32 - 1)) % U32))
    rw [hcnt]
    exact hlive
  · intro x hx
    obtain ⟨i, hi, hil, hig⟩ := mem_take_listGet q.data q.count x hx
    show (listGet q.data 0).when ≤ x.when
    rw [← hig]
    exact heapProp_root_le q.data q.count hhp i hi

theorem pushAll_spec (vs : List Event) : ∀ q : event_queue, WF q →
    heapProp q.data q.count → q.count + vs.length ≤ 2 ^ 30 →
    WF (pushAll q vs) ∧ (pushAll q vs).count = q.count + vs.length ∧
    heapProp (pushAll q vs).data (pushAll q vs).count ∧
    live (pushAll q vs) = ↑vs + live q := by
  induction vs with
  | nil =>
      intro q hwf hhp hb
      refine ⟨hwf, by simp [pushAll], by simpa [pushAll] using hhp, by simp [pushAll]⟩
  | cons v vs ih =>
      intro q hwf hhp hb
      have hstep := push_step q v hwf (by simp at hb; omega) hhp
      obtain ⟨hret, hwf', hcount', hhp', hlive'⟩ := hstep
      have hrec := ih (event_queue_push true q v).2 hwf' hhp'
        (by simp at hb ⊢; omega)
      obtain ⟨hwf2, hcount2, hhp2, hlive2⟩ := hrec
      refine ⟨by simpa [pushAll] using hwf2, ?_, by simpa [pushAll] using hhp2, ?_⟩
      · show (pushAll (event_queue_push true q v).2 vs).count = _
        rw [hcount2, hcount']
        simp
        omega
      · show live (pushAll (event_queue_push true q v).2 vs) = _
        rw [hlive2, hlive']
        rw [← Multiset.cons_coe, Multiset.cons_add]
        rw [Multiset.add_cons]

theorem popN_zero (q : event_queue) : popN q 0 = ([], q) := rfl

theorem popN_succ (q : event_queue) (m : Nat) :
    popN q (m + 1) =
      ((event_queue_pop q).1 :: (popN (event_queue_pop q).2 m).1,
        (popN (event_queue_pop q).2 m).2) := rfl

theorem popN_spec (m : Nat) : ∀ q : event_queue, WF q →
    heapProp q.data q.count → m ≤ q.count →
    WF (popN q m).2 ∧ (popN q m).2.count = q.count - m ∧
    heapProp (popN q m).2.data (popN q m).2.count ∧
    live q = ↑(popN q m).1 + live (popN q m).2 ∧
    List.Pairwise (fun a b => a.when ≤ b.when) (popN q m).1 ∧
    (∀ x ∈ (popN q m).1, ∀ y ∈ live (popN q m).2, x.when ≤ y.when) := by
  induction m with
  | zero =>
      intro q hwf hhp hm
      rw [popN_zero]
      exact ⟨hwf, by dsimp only; omega, hhp, by simp, by simp, by simp⟩
  | succ m ih =>
      intro q hwf hhp hm
      have hstep := pop_step q hwf (by omega) hhp
      obtain ⟨hwf', hcount', hhp', hlive', hmin'⟩ := hstep
      have hrec := ih (event_queue_pop q).2 hwf' hhp' (by omega)
      obtain ⟨hwf2, hcount2, hhp2, hlive2, hsort2, hmin2⟩ := hrec
      have hmem : ∀ x ∈ (popN (event_queue_pop q).2 m).1, x ∈ live (event_queue_pop q).2 := by
        intro x hx
        rw [hlive2, Multiset.mem_add]
        exact Or.inl (by simpa using hx)
      have hmemfin : ∀ y ∈ live (popN (event_queue_pop q).2 m).2,
          y ∈ live (event_queue_pop q).2 := by
        intro y hy
        rw [hlive2, Multiset.mem_add]
        exact Or.inr hy
      have hr_le : ∀ x ∈ live (event_queue_pop q).2,
          ((event_queue_pop q).1).when ≤ x.when := by
        intro x hx
        apply hmin'
        rw [hlive']
        exact Multiset.mem_cons_of_mem hx
      rw [popN_succ]
      dsimp only
      refine ⟨hwf2, by omega, hhp2, ?_, ?_, ?_⟩
      · rw [hlive', hlive2, ← Multiset.cons_coe, Multiset.cons_add]
      · rw [List.pairwise_cons]
        exact ⟨fun x hx => hr_le x (hmem x hx), hsort2⟩
      · intro x hx y hy
        rcases List.mem_cons.mp hx with hxr | hxo
        · subst hxr
          exact hr_le y (hmemfin y hy)
        · exact hmin2 x hxo y hy

theorem runOps_nil (q : event_queue) : runOps q [] = ([], q) := rfl

theorem runOps_push (q : event_queue) (e : Event) (rest : List QOp) :
    runOps q (QOp.push e :: rest) = runOps (event_queue_push true q e).2 rest := rfl

theorem runOps_pop (q : event_queue) (rest : List QOp) :
    runOps q (QOp.pop :: rest) =
      ((event_queue_pop q).1 :: (runOps (event_queue_pop q).2 rest).1,
        (runOps (event_queue_pop q).2 rest).2) := rfl

theorem validOps_push (q : event_queue) (e : Event) (rest : List QOp) :
    validOps q (QOp.push e :: rest) =
      (decide (q.count < 2 ^ 30) && validOps (event_queue_push true q e).2 rest) := rfl

theorem validOps_pop (q : event_queue) (rest : List QOp) :
    validOps q (QOp.pop :: rest) =
      (decide (0 < q.count) && validOps (event_queue_pop q).2 rest) := rfl

theorem pushedEvents_nil : pushedEvents [] = [] := rfl

theorem pushedEvents_push (e : Event) (rest : List QOp) :
    pushedEvents (QOp.push e :: rest) = e :: pushedEvents rest := rfl

theorem pushedEvents_pop (rest : List QOp) :
    pushedEvents (QOp.pop :: rest) = pushedEvents rest := rfl

theorem runOps_spec (ops : List QOp) : ∀ q : event_queue, WF q →
    heapProp q.data q.count → validOps q ops = true →
    WF (runOps q ops).2 ∧
    heapProp (runOps q ops).2.data (runOps q ops).2.count ∧
    (↑(pushedEvents ops) : Multiset Event) + live q
      = ↑(runOps q ops).1 + live (runOps q ops).2 := by
  induction ops with
  | nil =>
      intro q hwf hhp hv
      rw [runOps_nil]
      exact ⟨hwf, hhp, by rw [pushedEvents_nil]⟩
  | cons op rest ih =>
      intro q hwf hhp hv
      cases op with
      | push e =>
          rw [validOps_push, Bool.and_eq_true, decide_eq_true_eq] at hv
          have hstep := push_step q e hwf hv.1 hhp
          obtain ⟨hret, hwf', hcount', hhp', hlive'⟩ := hstep
          have hrec := ih (event_queue_push true q e).2 hwf' hhp' hv.2
          obtain ⟨hwf2, hhp2, hmset2⟩ := hrec
          rw [runOps_push, pushedEvents_push]
          refine ⟨hwf2, hhp2, ?_⟩
          rw [← Multiset.cons_coe, Multiset.cons_add, ← hmset2, hlive']
          rw [Multiset.add_cons]
      | pop =>
          rw [validOps_pop, Bool.and_eq_true, decide_eq_true_eq] at hv
          have hstep := pop_step q hwf hv.1 hhp
          obtain ⟨hwf', hcount', hhp', hlive', hmin'⟩ := hstep
          have hrec := ih (event_queue_pop q).2 hwf' hhp' hv.2
          obtain ⟨hwf2, hhp2, hmset2⟩ := hrec
          rw [runOps_pop, pushedEvents_pop]
          dsimp only
          refine ⟨hwf2, hhp2, ?_⟩
          rw [hlive', Multiset.add_cons, hmset2, ← Multiset.cons_coe, Multiset.cons_add]

theorem intGet_map (l : List Event) (i : Nat) :
    intGet (l.map projEvent) i = projEvent (listGet l i) := by
  induction l generalizing i with
  | nil => simp [intGet, listGet, projEvent, defaultEvent]
  | cons a t ih =>
      cases i with
      | zero => simp [intGet, listGet]
      | succ i => simpa [intGet, listGet] using ih i

theorem projEvent_le (a b : Event) : CMP (projEvent a) (projEvent b) ↔ EVENT_CMP a b :=
  Int.ofNat_le

theorem proj_siftUpLoop (v : Event) (data : List Event) (index : Nat) :
    intSiftUpLoop (projEvent v) (data.map projEvent) index
      = (siftUpLoop v data index).map projEvent := by
  induction data, index using siftUpLoop.induct v with
  | case1 data =>
      rw [siftUpLoop.eq_def, intSiftUpLoop.eq_def]
      simp [List.map_set]
  | case2 data index h1 h2 =>
      rw [siftUpLoop.eq_def, intSiftUpLoop.eq_def]
      have hcmp : CMP (intGet (data.map projEvent) ((index - 1) / 2)) (projEvent v) := by
        rw [intGet_map]
        exact (projEvent_le _ _).mpr h2
      simp only [if_neg h1, if_pos h2, if_pos hcmp]
      rw [List.map_set]
  | case3 data index h1 h2 ih =>
      rw [siftUpLoop.eq_def, intSiftUpLoop.eq_def]
      have hcmp : ¬ CMP (intGet (data.map projEvent) ((index - 1) / 2)) (projEvent v) := by
        rw [intGet_map]
        exact fun hc => h2 ((projEvent_le _ _).mp hc)
      simp only [if_neg h1, if_neg h2, if_neg hcmp]
      rw [intGet_map, ← List.map_set]
      exact ih

theorem proj_siftDownLoop (cnt : Nat) (temp : Event) (data : List Event) (index : Nat) :
    intSiftDownLoop cnt (projEvent temp) (data.map projEvent) index
      = (siftDownLoop cnt temp data index).map projEvent := by
  induction data, index using siftDownLoop.induct cnt temp with
  | case1 data index h1 =>
      rw [siftDownLoop.eq_def, intSiftDownLoop.eq_def]
      simp only [if_pos h1, List.map_set]
  | case2 data index h1 h2 h3 =>
      rw [siftDownLoop.eq_def, intSiftDownLoop.eq_def]
      have hc2 : 2 * index + 1 + 1 < cnt ∧
          CMP (intGet (data.map projEvent) (2 * index + 1 + 1))
            (intGet (data.map projEvent) (2 * index + 1)) := by
        rw [intGet_map, intGet_map]
        exact ⟨h2.1, (projEvent_le _ _).mpr h2.2⟩
      have hc3 : CMP (projEvent temp) (intGet (data.map projEvent) (2 * index + 1 + 1)) := by
        rw [intGet_map]
        exact (projEvent_le _ _).mpr h3
      simp only [if_neg h1, if_pos h2, if_pos hc2, if_pos h3, if_pos hc3, List.map_set]
  | case3 data index h1 h2 h3 ih =>
      rw [siftDownLoop.eq_def, intSiftDownLoop.eq_def]
      have hc2 : 2 * index + 1 + 1 < cnt ∧
          CMP (intGet (data.map projEvent) (2 * index + 1 + 1))
            (intGet (data.map projEvent) (2 * index + 1)) := by
        rw [intGet_map, intGet_map]
        exact ⟨h2.1, (projEvent_le _ _).mpr h2.2⟩
      have hc3 : ¬ CMP (projEvent temp) (intGet (data.map projEvent) (2 * index + 1 + 1)) := by
        rw [intGet_map]
        exact fun hc => h3 ((projEvent_le _ _).mp hc)
      simp only [if_neg h1, if_pos h2, if_pos hc2, if_neg h3, if_neg hc3]
      rw [intGet_map, ← List.map_set]
      exact ih
  | case4 data index h1 h2 h3 =>
      rw [siftDownLoop.eq_def, intSiftDownLoop.eq_def]
      have hc2 : ¬ (2 * index + 1 + 1 < cnt ∧
          CMP (intGet (data.map projEvent) (2 * index + 1 + 1))
            (intGet (data.map projEvent) (2 * index + 1))) := by
        rw [intGet_map, intGet_map]
        exact fun hc => h2 ⟨hc.1, (projEvent_le _ _).mp hc.2⟩
      have hc3 : CMP (projEvent temp) (intGet (data.map projEvent) (2 * index + 1)) := by
        rw [intGet_map]
        exact (projEvent_le _ _).mpr h3
      simp only [if_neg h1, if_neg h2, if_neg hc2, if_pos h3, if_pos hc3, List.map_set]
  | case5 data index h1 h2 h3 ih =>
      rw [siftDownLoop.eq_def, intSiftDownLoop.eq_def]
      have hc2 : ¬ (2 * index + 1 + 1 < cnt ∧
          CMP (intGet (data.map projEvent) (2 * index + 1 + 1))
            (intGet (data.map projEvent) (2 * index + 1))) := by
        rw [intGet_map, intGet_map]
        exact fun hc => h2 ⟨hc.1, (projEvent_le _ _).mp hc.2⟩
      have hc3 : ¬ CMP (projEvent temp) (intGet (data.map projEvent) (2 * index + 1)) := by
        rw [intGet_map]
        exact fun hc => h3 ((projEvent_le _ _).mp hc)
      simp only [if_neg h1, if_neg h2, if_neg hc2, if_neg h3, if_neg hc3]
      rw [intGet_map, ← List.map_set]
      exact ih

theorem proj_push (a : Bool) (q : event_queue) (v : Event) (h : q.count ≠ q.cap) :
    queue_push (projQueue q) (projEvent v) = projQueue (event_queue_push a q v).2 ∧
    (event_queue_push a q v).1 = 0 := by
  rw [event_queue_push_nogrow a q v h]
  refine ⟨?_, rfl⟩
  show ({ count := (q.count + 1) % U32,
          data := intSiftUpLoop (projEvent v) (q.data.map projEvent) q.count } : queue) = _
  rw [proj_siftUpLoop]
  rfl

theorem queue_pop_def (q : queue) :
    queue_pop q =
      ( intGet q.data 0,
        { count := (q.count + (U32 - 1)) % U32,
          data := intSiftDownLoop ((q.count + (U32 - 1)) % U32)
            (intGet q.data ((q.count + (U32 - 1)) % U32)) q.data 0 } ) := rfl

theorem proj_pop (q : event_queue) :
    queue_pop (projQueue q) =
      (projEvent (event_queue_pop q).1, projQueue (event_queue_pop q).2) := by
  rw [event_queue_pop_def, queue_pop_def]
  dsimp only [projQueue]
  rw [intGet_map, intGet_map, proj_siftDownLoop]

theorem runIntOps_nil (q : queue) : runIntOps q [] = ([], q) := rfl

theorem runIntOps_push (q : queue) (k : Int) (rest : List IOp) :
    runIntOps q (IOp.push k :: rest) = runIntOps (queue_push q k) rest := rfl

theorem runIntOps_pop (q : queue) (rest : List IOp) :
    runIntOps q (IOp.pop :: rest) =
      ((queue_pop q).1 :: (runIntOps (queue_pop q).2 rest).1,
        (runIntOps (queue_pop q).2 rest).2) := rfl

theorem noGrowValid_push (q : event_queue) (e : Event) (rest : List QOp) :
    noGrowValid q (QOp.push e :: rest) =
      (decide (q.count < q.cap) && noGrowValid (event_queue_push true q e).2 rest) := rfl

theorem noGrowValid_pop (q : event_queue) (rest : List QOp) :
    noGrowValid q (QOp.pop :: rest) =
      (decide (0 < q.count) && noGrowValid (event_queue_pop q).2 rest) := rfl

theorem proj_runOps (ops : List QOp) : ∀ q : event_queue, noGrowValid q ops = true →
    runIntOps (projQueue q) (ops.map projOp) =
      ((runOps q ops).1.map projEvent, projQueue (runOps q ops).2) := by
  induction ops with
  | nil =>
      intro q hv
      rw [runOps_nil]
      rfl
  | cons op rest ih =>
      intro q hv
      cases op with
      | push e =>
          rw [noGrowValid_push, Bool.and_eq_true, decide_eq_true_eq] at hv
          have hcm := proj_push true q e (by omega)
          show runIntOps (projQueue q) (IOp.push (projEvent e) :: rest.map projOp) = _
          rw [runIntOps_push, hcm.1, runOps_push]
          exact ih (event_queue_push true q e).2 hv.2
      | pop =>
          rw [noGrowValid_pop, Bool.and_eq_true, decide_eq_true_eq] at hv
          show runIntOps (projQueue q) (IOp.pop :: rest.map projOp) = _
          rw [runIntOps_pop, runOps_pop, proj_pop]
          dsimp only
          rw [ih (event_queue_pop q).2 hv.2]
          rfl

instance (q : event_queue) : Decidable (WF q) :=
  decidable_of_iff
    (q.count ≤ q.cap ∧ q.data.length = q.cap ∧ 1 ≤ q.cap ∧ q.cap ≤ 2 ^ 31) Iff.rfl

theorem event_queue_init_WF (k : Nat) (h1 : 1 ≤ k) (h2 : k ≤ 2 ^ 31) :
    WF (event_queue_init k) :=
  ⟨by simp [event_queue_init], by simp [event_queue_init], h1, h2⟩

theorem event_queue_init_heapProp (k : Nat) :
    heapProp (event_queue_init k).data (event_queue_init k).count := by
  intro i h0 hi
  simp [event_queue_init] at hi

theorem live_init (k : Nat) : live (event_queue_init k) = 0 := by
  simp [live, event_queue_init]

/-- C3: the heap property over the live range is an invariant: any state
satisfying it (together with the structural well-formedness every queue built
by the code enjoys, and a count small enough that the 32-bit arithmetic does
not wrap) satisfies it again after any successful `event_queue_push`, with any
`realloc` outcome, and after `event_queue_pop` on a nonempty queue. -/
theorem C3_heap_invariant_preserved (a : Bool) (q : event_queue) (v : Event)
    (hwf : WF q) (hcount : q.count < 2 ^ 30) (hhp : heapProp q.data q.count) :
    ((event_queue_push a q v).1 = 0 →
      heapProp (event_queue_push a q v).2.data (event_queue_push a q v).2.count) ∧
    (0 < q.count →
      heapProp (event_queue_pop q).2.data (event_queue_pop q).2.count) := by
  constructor
  · intro hret
    cases a with
    | false =>
        by_cases hg : q.count = q.cap
        · rw [event_queue_push_fail q v hg] at hret
          exact absurd hret (by norm_num)
        · have hps := push_step q v hwf hcount hhp
          rw [event_queue_push_nogrow true q v hg] at hps
          rw [event_queue_push_nogrow false q v hg]
          exact hps.2.2.2.1
    | true =>
        exact (push_step q v hwf hcount hhp).2.2.2.1
  · intro h0
    exact (pop_step q hwf h0 hhp).2.2.1

theorem C3_witness :
    WF ⟨1, 2, [⟨5, 1, 2⟩, ⟨9, 3, 4⟩]⟩ ∧ (1 : Nat) < 2 ^ 30 ∧
    heapProp [⟨5, 1, 2⟩, ⟨9, 3, 4⟩] 1 ∧
    ((event_queue_push true ⟨1, 2, [⟨5, 1, 2⟩, ⟨9, 3, 4⟩]⟩ ⟨3, 0, 0⟩).1 = 0 →
      heapProp (event_queue_push true ⟨1, 2, [⟨5, 1, 2⟩, ⟨9, 3, 4⟩]⟩ ⟨3, 0, 0⟩).2.data
        (event_queue_push true ⟨1, 2, [⟨5, 1, 2⟩, ⟨9, 3, 4⟩]⟩ ⟨3, 0, 0⟩).2.count) ∧
    (0 < (1 : Nat) →
      heapProp (event_queue_pop ⟨1, 2, [⟨5, 1, 2⟩, ⟨9, 3, 4⟩]⟩).2.data
        (event_queue_pop ⟨1, 2, [⟨5, 1, 2⟩, ⟨9, 3, 4⟩]⟩).2.count) :=
  ⟨by decide, by decide, by decide,
    (C3_heap_invariant_preserved true ⟨1, 2, [⟨5, 1, 2⟩, ⟨9, 3, 4⟩]⟩ ⟨3, 0, 0⟩
      (by decide) (by decide) (by decide)).1,
    (C3_heap_invariant_preserved true ⟨1, 2, [⟨5, 1, 2⟩, ⟨9, 3, 4⟩]⟩ ⟨3, 0, 0⟩
      (by decide) (by decide) (by decide)).2⟩

/-- C4: for any list of events pushed (all pushes succeeding) into a freshly
initialised queue of positive capacity, popping as many times as there were
pushes returns the timestamps in nondecreasing order.  The size bounds keep
the 32-bit counters and the capacity doubling from wrapping. -/
theorem C4_sorted_extraction (k : Nat) (vs : List Event)
    (hk1 : 1 ≤ k) (hk2 : k ≤ 2 ^ 31) (hlen : vs.length ≤ 2 ^ 30) :
    List.Pairwise (fun a b => a.when ≤ b.when)
      (popN (pushAll (event_queue_init k) vs) vs.length).1 := by
  have hpa := pushAll_spec vs (event_queue_init k)
    (event_queue_init_WF k hk1 hk2) (event_queue_init_heapProp k)
    (by simpa [event_queue_init] using hlen)
  obtain ⟨hwf1, hcount1, hhp1, hlive1⟩ := hpa
  have hpn := popN_spec vs.length (pushAll (event_queue_init k) vs) hwf1 hhp1
    (by rw [hcount1]; simp [event_queue_init])
  exact hpn.2.2.2.2.1

theorem C4_witness :
    (1 : Nat) ≤ 2 ∧ (2 : Nat) ≤ 2 ^ 31 ∧
    ([(⟨5, 0, 1⟩ : Event), ⟨2, 0, 2⟩, ⟨8, 0, 3⟩].length ≤ 2 ^ 30) ∧
    List.Pairwise (fun a b : Event => a.when ≤ b.when)
      (popN (pushAll (event_queue_init 2) [⟨5, 0, 1⟩, ⟨2, 0, 2⟩, ⟨8, 0, 3⟩])
        [(⟨5, 0, 1⟩ : Event), ⟨2, 0, 2⟩, ⟨8, 0, 3⟩].length).1 :=
  ⟨by decide, by decide, by decide,
    C4_sorted_extraction 2 [⟨5, 0, 1⟩, ⟨2, 0, 2⟩, ⟨8, 0, 3⟩]
      (by decide) (by decide) (by decide)⟩

/-- C5: over any interleaving of pushes (with every allocation succeeding)
and pops on nonempty queues, starting from a freshly initialised queue of
positive capacity, the multiset of events pushed equals the multiset of
events returned by the pops plus the multiset still held in the first
`count` buffer slots. -/
theorem C5_multiset_preservation (k : Nat) (ops : List QOp)
    (hk1 : 1 ≤ k) (hk2 : k ≤ 2 ^ 31)
    (hv : validOps (event_queue_init k) ops = true) :
    (↑(pushedEvents ops) : Multiset Event)
      = ↑(runOps (event_queue_init k) ops).1
        + live (runOps (event_queue_init k) ops).2 := by
  have hrs := runOps_spec ops (event_queue_init k)
    (event_queue_init_WF k hk1 hk2) (event_queue_init_heapProp k) hv
  have := hrs.2.2
  rwa [live_init, add_zero] at this

theorem C5_witness :
    (1 : Nat) ≤ 1 ∧ (1 : Nat) ≤ 2 ^ 31 ∧
    validOps (event_queue_init 1)
      [QOp.push ⟨4, 0, 1⟩, QOp.push ⟨2, 0, 2⟩, QOp.pop] = true ∧
    (↑(pushedEvents [QOp.push ⟨4, 0, 1⟩, QOp.push ⟨2, 0, 2⟩, QOp.pop]) : Multiset Event)
      = ↑(runOps (event_queue_init 1)
            [QOp.push ⟨4, 0, 1⟩, QOp.push ⟨2, 0, 2⟩, QOp.pop]).1
        + live (runOps (event_queue_init 1)
            [QOp.push ⟨4, 0, 1⟩, QOp.push ⟨2, 0, 2⟩, QOp.pop]).2 :=
  ⟨by decide, by decide, by decide,
    C5_multiset_preservation 1 [QOp.push ⟨4, 0, 1⟩, QOp.push ⟨2, 0, 2⟩, QOp.pop]
      (by decide) (by decide) (by decide)⟩

/-- C6: when the queue is nonempty and the heap property holds,
`event_queue_pop` returns `buffer[0]`, whose timestamp is minimal among the
timestamps of all `count` elements present before the call. -/
theorem C6_pop_returns_minimum (q : event_queue) (_h0 : 0 < q.count)
    (hhp : heapProp q.data q.count) :
    (event_queue_pop q).1 = listGet q.data 0 ∧
    ∀ i, i < q.count → ((event_queue_pop q).1).when ≤ (listGet q.data i).when := by
  constructor
  · rw [event_queue_pop_def]
  · intro i hi
    rw [event_queue_pop_def]
    exact heapProp_root_le q.data q.count hhp i hi

theorem C6_witness :
    (0 : Nat) < 3 ∧ heapProp [⟨1, 0, 1⟩, ⟨5, 0, 2⟩, ⟨2, 0, 3⟩, ⟨9, 9, 9⟩] 3 ∧
    (event_queue_pop ⟨3, 4, [⟨1, 0, 1⟩, ⟨5, 0, 2⟩, ⟨2, 0, 3⟩, ⟨9, 9, 9⟩]⟩).1
      = listGet [⟨1, 0, 1⟩, ⟨5, 0, 2⟩, ⟨2, 0, 3⟩, ⟨9, 9, 9⟩] 0 ∧
    ∀ i, i < 3 →
      ((event_queue_pop ⟨3, 4, [⟨1, 0, 1⟩, ⟨5, 0, 2⟩, ⟨2, 0, 3⟩, ⟨9, 9, 9⟩]⟩).1).when
        ≤ (listGet [⟨1, 0, 1⟩, ⟨5, 0, 2⟩, ⟨2, 0, 3⟩, ⟨9, 9, 9⟩] i).when :=
  ⟨by decide, by decide,
    (C6_pop_returns_minimum ⟨3, 4, [⟨1, 0, 1⟩, ⟨5, 0, 2⟩, ⟨2, 0, 3⟩, ⟨9, 9, 9⟩]⟩
      (by decide) (by decide)).1,
    (C6_pop_returns_minimum ⟨3, 4, [⟨1, 0, 1⟩, ⟨5, 0, 2⟩, ⟨2, 0, 3⟩, ⟨9, 9, 9⟩]⟩
      (by decide) (by decide)).2⟩

/-- C9: under the caller-enforced preconditions (`count < cap` before every
push, `count > 0` before every pop, so the event queue never grows), the
fixed-capacity integer heap of `queue.c` run on the bare keys performs the
same sift-up/sift-down algorithm as the event queue of `event_queue.c`:
along any operation sequence the popped keys are exactly the timestamps of
the popped events, in the same order, and the final buffers and counts agree
key for key. -/
theorem C9_int_heap_refines_event_queue (q : event_queue) (ops : List QOp)
    (hv : noGrowValid q ops = true) :
    (runIntOps (projQueue q) (ops.map projOp)).1 = (runOps q ops).1.map projEvent ∧
    (runIntOps (projQueue q) (ops.map projOp)).2.data
      = (runOps q ops).2.data.map projEvent ∧
    (runIntOps (projQueue q) (ops.map projOp)).2.count = (runOps q ops).2.count := by
  rw [proj_runOps ops q hv]
  exact ⟨rfl, rfl, rfl⟩

theorem C9_witness :
    noGrowValid ⟨1, 3, [⟨4, 0, 1⟩, ⟨0, 0, 0⟩, ⟨0, 0, 0⟩]⟩
      [QOp.push ⟨2, 0, 2⟩, QOp.pop] = true ∧
    ((runIntOps (projQueue ⟨1, 3, [⟨4, 0, 1⟩, ⟨0, 0, 0⟩, ⟨0, 0, 0⟩]⟩)
        ([QOp.push ⟨2, 0, 2⟩, QOp.pop].map projOp)).1
      = (runOps ⟨1, 3, [⟨4, 0, 1⟩, ⟨0, 0, 0⟩, ⟨0, 0, 0⟩]⟩
          [QOp.push ⟨2, 0, 2⟩, QOp.pop]).1.map projEvent) ∧
    ((runIntOps (projQueue ⟨1, 3, [⟨4, 0, 1⟩, ⟨0, 0, 0⟩, ⟨0, 0, 0⟩]⟩)
        ([QOp.push ⟨2, 0, 2⟩, QOp.pop].map projOp)).2.count
      = (runOps ⟨1, 3, [⟨4, 0, 1⟩, ⟨0, 0, 0⟩, ⟨0, 0, 0⟩]⟩
          [QOp.push ⟨2, 0, 2⟩, QOp.pop]).2.count) :=
  ⟨by decide,
    (C9_int_heap_refines_event_queue ⟨1, 3, [⟨4, 0, 1⟩, ⟨0, 0, 0⟩, ⟨0, 0, 0⟩]⟩
      [QOp.push ⟨2, 0, 2⟩, QOp.pop] (by decide)).1,
    (C9_int_heap_refines_event_queue ⟨1, 3, [⟨4, 0, 1⟩, ⟨0, 0, 0⟩, ⟨0, 0, 0⟩]⟩
      [QOp.push ⟨2, 0, 2⟩, QOp.pop] (by decide)).2.2⟩

/-- C10: the operations are deterministic functions of the queue state and
their arguments (including the allocation outcome): equal states and equal
arguments give equal results, so the whole extraction order is a function of
the insertion history alone. -/
theorem C10_operations_deterministic (a : Bool) (q1 q2 : event_queue) (v : Event)
    (h : q1 = q2) :
    event_queue_push a q1 v = event_queue_push a q2 v ∧
    event_queue_pop q1 = event_queue_pop q2 ∧
    ∀ ops : List QOp, runOps q1 ops = runOps q2 ops := by
  subst h
  exact ⟨rfl, rfl, fun _ => rfl⟩

theorem C10_witness :
    event_queue_push true ⟨1, 2, [⟨5, 1, 2⟩, ⟨9, 3, 4⟩]⟩ ⟨3, 0, 0⟩
      = event_queue_push true ⟨1, 2, [⟨5, 1, 2⟩, ⟨9, 3, 4⟩]⟩ ⟨3, 0, 0⟩ ∧
    event_queue_pop ⟨1, 2, [⟨5, 1, 2⟩, ⟨9, 3, 4⟩]⟩
      = event_queue_pop ⟨1, 2, [⟨5, 1, 2⟩, ⟨9, 3, 4⟩]⟩ ∧
    ∀ ops : List QOp, runOps ⟨1, 2, [⟨5, 1, 2⟩, ⟨9, 3, 4⟩]⟩ ops
      = runOps ⟨1, 2, [⟨5, 1, 2⟩, ⟨9, 3, 4⟩]⟩ ops :=
  C10_operations_deterministic true ⟨1, 2, [⟨5, 1, 2⟩, ⟨9, 3, 4⟩]⟩
    ⟨1, 2, [⟨5, 1, 2⟩, ⟨9, 3, 4⟩]⟩ ⟨3, 0, 0⟩ rfl

/-- C1 (refuting evaluation): on a full queue (`count = cap = 1`) whose
`realloc` fails, `event_queue_push` does return `1`, but the queue is NOT
left unchanged: the capacity has already been doubled to `2` and the buffer
pointer has been overwritten with `NULL` (the old buffer is leaked), exactly
as the spec itself warns about the pointer-reassignment approach. -/
theorem C1_alloc_failure_corrupts_queue :
    (event_queue_push false ⟨1, 1, [⟨5, 6, 7⟩]⟩ ⟨9, 10, 11⟩).1 = 1 ∧
    (event_queue_push false ⟨1, 1, [⟨5, 6, 7⟩]⟩ ⟨9, 10, 11⟩).2
      = ⟨1, 2, []⟩ ∧
    (event_queue_push false ⟨1, 1, [⟨5, 6, 7⟩]⟩ ⟨9, 10, 11⟩).2.cap ≠ 1 := by
  rw [event_queue_push_fail ⟨1, 1, [⟨5, 6, 7⟩]⟩ ⟨9, 10, 11⟩ rfl]
  refine ⟨rfl, ?_, ?_⟩ <;> simp [U32]

/-- C2 (refuting evaluation): `event_queue_pop` has no empty-queue check.
Called on a queue with `count = 0` it reads `buffer[0]` and returns whatever
is stored there, and the `unsigned int` decrement `--count` wraps around to
`2^32 - 1`, so the queue is modified and no `EmptyQueue` error is ever
produced (the function cannot even report one). -/
theorem C2_pop_on_empty_underflows :
    (event_queue_pop ⟨0, 2, [⟨3, 0, 0⟩, ⟨4, 0, 0⟩]⟩).1 = ⟨3, 0, 0⟩ ∧
    (event_queue_pop ⟨0, 2, [⟨3, 0, 0⟩, ⟨4, 0, 0⟩]⟩).2.count = 4294967295 := by
  rw [event_queue_pop_def]
  constructor
  · simp [listGet]
  · simp [U32]

/-- C8 (refuting evaluation): growing a queue initialised with capacity `0`
computes `0 * 2 = 0` as the new capacity, which is not strictly larger; the
element the C code then writes goes out of bounds (in the model it is lost),
even though the push reports success and `count` becomes `1`. -/
theorem C8_growth_from_capacity_zero_stays_zero :
    (event_queue_push true ⟨0, 0, []⟩ ⟨5, 0, 0⟩).1 = 0 ∧
    (event_queue_push true ⟨0, 0, []⟩ ⟨5, 0, 0⟩).2.cap = 0 ∧
    (event_queue_push true ⟨0, 0, []⟩ ⟨5, 0, 0⟩).2.count = 1 ∧
    (event_queue_push true ⟨0, 0, []⟩ ⟨5, 0, 0⟩).2.data = [] := by
  rw [event_queue_push_grow ⟨0, 0, []⟩ ⟨5, 0, 0⟩ rfl]
  refine ⟨rfl, by simp [U32], by simp [U32], ?_⟩
  show siftUpLoop ⟨5, 0, 0⟩ (reallocBuf [] (0 * 2 % U32)) 0 = []
  rw [siftUpLoop.eq_def]
  simp [reallocBuf]

/-- C7 (counterexample): during sift-down with both children in the live
range, the comparison `EVENT_CMP(data[other], data[swap])` is non-strict
(`<=`), so on equal timestamps the RIGHT child is chosen, not the left.
Popping the heap `[0, 7, 7, 9, 9]` (payloads 10..14 tell the elements apart)
moves the right child `⟨7,0,12⟩` to the root; left-preference would have
moved `⟨7,0,11⟩` there. -/
theorem C7_counterexample_tie_prefers_right :
    (event_queue_pop ⟨5, 5, [⟨0, 0, 10⟩, ⟨7, 0, 11⟩, ⟨7, 0, 12⟩,
        ⟨9, 0, 13⟩, ⟨9, 0, 14⟩]⟩).2.data
      = [⟨7, 0, 12⟩, ⟨7, 0, 11⟩, ⟨9, 0, 14⟩, ⟨9, 0, 13⟩, ⟨9, 0, 14⟩] ∧
    listGet (event_queue_pop ⟨5, 5, [⟨0, 0, 10⟩, ⟨7, 0, 11⟩, ⟨7, 0, 12⟩,
        ⟨9, 0, 13⟩, ⟨9, 0, 14⟩]⟩).2.data 0 ≠ ⟨7, 0, 11⟩ := by
  rw [event_queue_pop_def]
  have hc : (5 + (U32 - 1)) % U32 = 4 := by simp [U32]
  rw [hc]
  constructor
  · show siftDownLoop 4 (listGet _ 4) _ 0 = _
    simp [siftDownLoop, listGet, defaultEvent]
  · show listGet (siftDownLoop 4 (listGet _ 4) _ 0) 0 ≠ _
    simp [siftDownLoop, listGet, defaultEvent]

/-- C7 (amended): the tie-break of the sift-down loop, as implemented:
whenever both children are inside the live range and the right child's
timestamp is less than OR EQUAL to the left child's, the loop compares the
sinking element against the RIGHT child and, if it must descend, moves the
right child up and continues from the right child's position.  The left
child is used only when the right child's timestamp is strictly greater
(or the right child is outside the live range). -/
theorem C7_amended_tie_goes_right (cnt : Nat) (temp : Event) (data : List Event)
    (index : Nat) (h1 : 2 * index + 1 + 1 < cnt)
    (h2 : (listGet data (2 * index + 1 + 1)).when ≤ (listGet data (2 * index + 1)).when) :
    siftDownLoop cnt temp data index =
      if EVENT_CMP temp (listGet data (2 * index + 1 + 1)) then data.set index temp
      else siftDownLoop cnt temp (data.set index (listGet data (2 * index + 1 + 1)))
        (2 * index + 1 + 1) := by
  rw [siftDownLoop.eq_def]
  rw [if_neg (by omega), if_pos ⟨h1, h2⟩]

theorem C7_amended_witness :
    2 * 0 + 1 + 1 < 4 ∧
    (listGet [(⟨0, 0, 10⟩ : Event), ⟨7, 0, 11⟩, ⟨7, 0, 12⟩, ⟨9, 0, 13⟩] (2 * 0 + 1 + 1)).when
      ≤ (listGet [(⟨0, 0, 10⟩ : Event), ⟨7, 0, 11⟩, ⟨7, 0, 12⟩, ⟨9, 0, 13⟩] (2 * 0 + 1)).when ∧
    siftDownLoop 4 ⟨8, 0, 15⟩ [⟨0, 0, 10⟩, ⟨7, 0, 11⟩, ⟨7, 0, 12⟩, ⟨9, 0, 13⟩] 0 =
      (if EVENT_CMP ⟨8, 0, 15⟩
          (listGet [(⟨0, 0, 10⟩ : Event), ⟨7, 0, 11⟩, ⟨7, 0, 12⟩, ⟨9, 0, 13⟩] (2 * 0 + 1 + 1))
        then List.set [⟨0, 0, 10⟩, ⟨7, 0, 11⟩, ⟨7, 0, 12⟩, ⟨9, 0, 13⟩] 0 ⟨8, 0, 15⟩
        else siftDownLoop 4 ⟨8, 0, 15⟩
          (List.set [⟨0, 0, 10⟩, ⟨7, 0, 11⟩, ⟨7, 0, 12⟩, ⟨9, 0, 13⟩] 0
            (listGet [(⟨0, 0, 10⟩ : Event), ⟨7, 0, 11⟩, ⟨7, 0, 12⟩, ⟨9, 0, 13⟩] (2 * 0 + 1 + 1)))
          (2 * 0 + 1 + 1)) :=
  ⟨by decide, by decide,
    C7_amended_tie_goes_right 4 ⟨8, 0, 15⟩
      [⟨0, 0, 10⟩, ⟨7, 0, 11⟩, ⟨7, 0, 12⟩, ⟨9, 0, 13⟩] 0 (by decide) (by decide)⟩
